import Mathlib

/-!
Verification of the chordai repository's core algorithms: the transposition
engine (`data-collection/augment_transposition.py`), the variation engine
(`data-collection/augment_variations.py`), the vocabulary/encoding subsystem
and dataset splitter (`model-training/data_preprocessing.py`), and the
autoregressive generator (`model-training/evaluate_model.py` together with
`model-training/data_generator.py`).  Python functions are shallowly embedded
as executable Lean definitions; floating-point scores become rationals, the
process-global random draws become explicit parameters, and code paths that
raise become `Option`.
-/

namespace ChordAI

/-! ## Transposition engine (`augment_transposition.py`) -/

/-- The `CHROMATIC_SCALE` list from `augment_transposition.py` line 11 (the
seventh entry is spelled through `String.mk`, which is definitionally the
string literal `F#`). -/
def CHROMATIC_SCALE : List String :=
  ["C", "C#", "D", "D#", "E", "F", String.mk ['F', '#'], "G", "G#", "A", "A#", "B"]

/-- Lookup in `ENHARMONIC_MAP` (lines 14-17): the dict maps each sharp name to
its flat alias and each flat name to its sharp alias. -/
def enhMapGet (note : String) : Option String :=
  if note = "C#" then some "Db" else if note = "D#" then some "Eb"
  else if note = "F#" then some "Gb" else if note = "G#" then some "Ab"
  else if note = "A#" then some "Bb" else if note = "Db" then some "C#"
  else if note = "Eb" then some "D#" else if note = "Gb" then some "F#"
  else if note = "Ab" then some "G#" else if note = "Bb" then some "A#"
  else none

/-- The fallback scan in `transpose_note` (lines 50-55): iterate the
`ENHARMONIC_MAP` items in insertion order and replace the note by the first
key whose value equals it. -/
def sharpForFlat (note : String) : Option String :=
  if note = "Db" then some "C#" else if note = "Eb" then some "D#"
  else if note = "Gb" then some "F#" else if note = "Ab" then some "G#"
  else if note = "Bb" then some "A#" else if note = "C#" then some "Db"
  else if note = "D#" then some "Eb" else if note = "F#" then some "Gb"
  else if note = "G#" then some "Ab" else if note = "A#" then some "Bb"
  else none

/-- The `parse_chord` split (lines 20-37) on the underlying character list: the second
character is part of the root iff it is `b` or `#`. -/
def parseChordL : List Char → Option (String × String)
  | [] => none
  | [c] => some (String.mk [c], "")
  | c :: d :: rest =>
    if d = 'b' ∨ d = '#' then some (String.mk [c, d], String.mk rest)
    else some (String.mk [c], String.mk (d :: rest))

/-- The embedding of `parse_chord` (lines 20-37): split a chord symbol into root and quality.
Empty input yields `none` (the Python `(None, None)`). -/
def parseChord (chord : String) : Option (String × String) :=
  parseChordL chord.data

/-- First normalization step of `transpose_note` (lines 44-48): if the note is
an `ENHARMONIC_MAP` key containing the letter `b`, replace it by its sharp
alias. -/
def normalizeFlat (note : String) : String :=
  if (enhMapGet note).isSome ∧ note.data.contains 'b' = true
  then (enhMapGet note).getD note else note

/-- Second normalization step of `transpose_note` (lines 50-55): if the note is
still not in the chromatic scale, try the flat-to-sharp scan. -/
def flatToSharpFallback (note : String) : String :=
  if note ∈ CHROMATIC_SCALE then note else (sharpForFlat note).getD note

/-- The fully normalized root used by `transpose_note`. -/
def normNote (note : String) : String :=
  flatToSharpFallback (normalizeFlat note)

/-- The embedding of `transpose_note` (lines 40-62): normalize the note to sharp spelling, then
rotate it inside the chromatic scale; unrecognized notes are returned
unchanged. -/
def transposeNote (note : String) (semitones : Int) : String :=
  let n := normNote note
  if n ∈ CHROMATIC_SCALE then
    CHROMATIC_SCALE.getD (((CHROMATIC_SCALE.indexOf n : Int) + semitones)% 12).toNat "C"
  else n

/-- The embedding of `transpose_chord` (lines 65-75): transpose the parsed root, keep the
quality. -/
def transposeChord (chord : String) (semitones : Int) : String :=
  match parseChord chord with
  | none => chord
  | some (root, quality) => transposeNote root semitones ++ quality

/-- The embedding of `transpose_progression` (lines 78-82). -/
def transposeProgression (progression : List String) (semitones : Int) : List String :=
  progression.map (fun chord => transposeChord chord semitones)

/-- The embedding of `transpose_key` (lines 85-105): detect a trailing minor marker with the
three-case rule, transpose the root, reattach the marker. -/
def transposeKey (key : String) (semitones : Int) : String :=
  let rs : String × String :=
    if key.data.contains 'm' = true ∧ key.data.length > 1 then
      if key.data.getD 1 ' ' = 'm' then (String.mk (key.data.take 1), "m")
      else if key.data.length > 2 ∧ key.data.getD 2 ' ' = 'm' then
        (String.mk (key.data.take 2), "m")
      else (key, "")
    else (key, "")
  transposeNote rs.1 semitones ++ rs.2

/-- A progression record as used by `augment_with_transposition`
(lines 108-145): only the fields that function writes are modelled. -/
structure Prog where
  progression : List String
  key : String
  source : String
  deriving DecidableEq

/-- The inner loop of `augment_with_transposition` (lines 123-145): one base
progression is turned into 12 transposed copies, the semitone-0 copy being
marked `"original"` and the others `"transposed"`. -/
def augmentOne (base : Prog) : List Prog :=
  (List.range 12).map (fun s =>
    { progression := transposeProgression base.progression (s : Int)
      key := transposeKey base.key (s : Int)
      source := if s = 0 then "original" else "transposed" })

/-- The embedding of `augment_with_transposition` over the whole dataset (lines 123-145). -/
def augmentWithTransposition (bases : List Prog) : List Prog :=
  (bases.map augmentOne).flatten

/-- The five flat note names that the engine rewrites to sharp spelling. -/
def FLAT_NAMES : List String := ["Db", "Eb", "Gb", "Ab", "Bb"]

/-- A chord whose parsed root is not a flat alias (the class on which
transposition by 0 is the identity). -/
def rootNotFlat (c : String) : Prop :=
  ∀ r q, parseChord c = some (r, q) → r ∉ FLAT_NAMES

instance (c : String) : Decidable (rootNotFlat c) := by
  unfold rootNotFlat
  cases parseChord c with
  | none => exact isTrue (by intro r q h; cases h)
  | some p =>
      by_cases hp : p.1 ∈ FLAT_NAMES
      · exact isFalse (fun h => (h p.1 p.2 rfl) hp)
      · refine isTrue (fun r q h => ?_)
        obtain rfl : p = (r, q) := by injection h
        exact hp

/-- The ten keys of `ENHARMONIC_MAP`. -/
def ENH_KEYS : List String :=
  ["C#", "D#", "F#", "G#", "A#", "Db", "Eb", "Gb", "Ab", "Bb"]

theorem enhMapGet_eq_none (r : String) (h : r ∉ ENH_KEYS) : enhMapGet r = none := by
  simp only [ENH_KEYS, List.mem_cons, List.not_mem_nil, or_false, not_or] at h
  obtain ⟨h1, h2, h3, h4, h5, h6, h7, h8, h9, h10⟩ := h
  simp [enhMapGet, h1, h2, h3, h4, h5, h6, h7, h8, h9, h10]

theorem sharpForFlat_eq_none (r : String) (h : r ∉ ENH_KEYS) : sharpForFlat r = none := by
  simp only [ENH_KEYS, List.mem_cons, List.not_mem_nil, or_false, not_or] at h
  obtain ⟨h1, h2, h3, h4, h5, h6, h7, h8, h9, h10⟩ := h
  simp [sharpForFlat, h1, h2, h3, h4, h5, h6, h7, h8, h9, h10]

theorem normNote_of_not_key (r : String) (hk : r ∉ ENH_KEYS)
    (hm : r ∉ CHROMATIC_SCALE) : normNote r = r := by
  unfold normNote normalizeFlat flatToSharpFallback
  rw [enhMapGet_eq_none r hk]
  simp [hm, sharpForFlat_eq_none r hk]

theorem normNote_key (r : String) (h : r ∈ ENH_KEYS) :
    normNote r ∈ CHROMATIC_SCALE := by
  simp only [ENH_KEYS, List.mem_cons, List.not_mem_nil, or_false] at h
  rcases h with rfl | rfl | rfl | rfl | rfl | rfl | rfl | rfl | rfl | rfl <;> decide

theorem normNote_of_mem (r : String) (h : r ∈ CHROMATIC_SCALE) : normNote r = r := by
  simp only [CHROMATIC_SCALE, List.mem_cons, List.not_mem_nil, or_false] at h
  rcases h with rfl | rfl | rfl | rfl | rfl | rfl | rfl | rfl | rfl | rfl | rfl | rfl <;>
    decide

theorem normNote_cases (r : String) : normNote r = r ∨ normNote r ∈ CHROMATIC_SCALE := by
  by_cases hk : r ∈ ENH_KEYS
  · exact Or.inr (normNote_key r hk)
  · by_cases hm : r ∈ CHROMATIC_SCALE
    · exact Or.inl (normNote_of_mem r hm)
    · exact Or.inl (normNote_of_not_key r hk hm)

theorem transposeNote_of_norm_not_mem (r : String) (s : Int)
    (hm : normNote r ∉ CHROMATIC_SCALE) : transposeNote r s = r := by
  rcases normNote_cases r with h | h
  · unfold transposeNote
    rw [h] at hm ⊢
    simp [hm]
  · exact absurd h hm

theorem transposeNote_zero (r : String) (h : r ∉ FLAT_NAMES) : transposeNote r 0 = r := by
  by_cases hk : r ∈ ENH_KEYS
  · simp only [ENH_KEYS, List.mem_cons, List.not_mem_nil, or_false] at hk
    rcases hk with rfl | rfl | rfl | rfl | rfl | rfl | rfl | rfl | rfl | rfl <;>
      first
        | decide
        | exact absurd (by decide) h
  · by_cases hm : r ∈ CHROMATIC_SCALE
    · simp only [CHROMATIC_SCALE, List.mem_cons, List.not_mem_nil, or_false] at hm
      rcases hm with rfl | rfl | rfl | rfl | rfl | rfl | rfl | rfl | rfl | rfl | rfl | rfl <;>
        decide
    · unfold transposeNote
      rw [normNote_of_not_key r hk hm]
      simp [hm]

theorem transposeNote_chromatic (j : Nat) (hj : j < 12) (s : Int) :
    transposeNote (CHROMATIC_SCALE.getD j "C") s
      = CHROMATIC_SCALE.getD (((j : Int) + s)% 12).toNat "C" := by
  interval_cases j <;> rfl

theorem CHROM_getD_mem (j : Nat) (hj : j < 12) :
    CHROMATIC_SCALE.getD j "C" ∈ CHROMATIC_SCALE := by
  interval_cases j <;> decide

theorem CHROM_indexOf_getD (j : Nat) (hj : j < 12) :
    CHROMATIC_SCALE.indexOf (CHROMATIC_SCALE.getD j "C") = j := by
  interval_cases j <;> rfl

theorem parseChord_recompose (c r q : String) (h : parseChord c = some (r, q)) :
    r ++ q = c := by
  obtain ⟨l⟩ := c
  match l, h with
  | [], h => exact absurd h (by simp [parseChord, parseChordL])
  | [a], h =>
      have h' : some ((⟨[a]⟩ : String), ("" : String)) = some (r, q) := h
      injection h' with h''
      injection h'' with h1 h2
      subst h1; subst h2
      rfl
  | a :: d :: rest, h =>
      by_cases hd : d = 'b' ∨ d = '#'
      · have h' : (if d = 'b' ∨ d = '#' then some ((⟨[a, d]⟩ : String), (⟨rest⟩ : String))
            else some ((⟨[a]⟩ : String), (⟨d :: rest⟩ : String))) = some (r, q) := h
        rw [if_pos hd] at h'
        injection h' with h''
        injection h'' with h1 h2
        subst h1; subst h2
        rfl
      · have h' : (if d = 'b' ∨ d = '#' then some ((⟨[a, d]⟩ : String), (⟨rest⟩ : String))
            else some ((⟨[a]⟩ : String), (⟨d :: rest⟩ : String))) = some (r, q) := h
        rw [if_neg hd] at h'
        injection h' with h''
        injection h'' with h1 h2
        subst h1; subst h2
        rfl

theorem parseChord_one_append (a : Char) (q : String)
    (hq : ∀ d, q.data.head? = some d → d ≠ 'b' ∧ d ≠ '#') :
    parseChord (String.mk [a] ++ q) = some (String.mk [a], q) := by
  obtain ⟨l⟩ := q
  have he : parseChord (String.mk [a] ++ ⟨l⟩) = parseChordL ([a] ++ l) := rfl
  rw [he]
  match l, hq with
  | [], _ => rfl
  | d :: rest, hq =>
      have hd := hq d rfl
      simp [parseChordL, hd.1, hd.2]

theorem parseChord_two_append (a b : Char) (hb : b = 'b' ∨ b = '#') (q : String) :
    parseChord (String.mk [a, b] ++ q) = some (String.mk [a, b], q) := by
  obtain ⟨l⟩ := q
  have he : parseChord (String.mk [a, b] ++ ⟨l⟩) = parseChordL ([a, b] ++ l) := rfl
  rw [he]
  simp [parseChordL, hb]

theorem parseChord_chrom_append (j : Nat) (hj : j < 12) (q : String)
    (hq : ∀ d, q.data.head? = some d → d ≠ 'b' ∧ d ≠ '#') :
    parseChord (CHROMATIC_SCALE.getD j "C" ++ q)
      = some (CHROMATIC_SCALE.getD j "C", q) := by
  interval_cases j <;>
    first
      | exact parseChord_one_append _ q hq
      | exact parseChord_two_append _ _ (by decide) q

theorem transposeChord_parse_none (c : String) (s : Int) (h : parseChord c = none) :
    transposeChord c s = c := by
  simp [transposeChord, h]

theorem transposeChord_parse_some (c r q : String) (s : Int)
    (h : parseChord c = some (r, q)) :
    transposeChord c s = transposeNote r s ++ q := by
  simp [transposeChord, h]

theorem transposeNote_of_norm_mem (r : String) (s : Int)
    (hm : normNote r ∈ CHROMATIC_SCALE) :
    transposeNote r s = CHROMATIC_SCALE.getD
      (((CHROMATIC_SCALE.indexOf (normNote r) : Int) + s)% 12).toNat "C" := by
  simp [transposeNote, hm]

theorem transposeChord_zero (c : String) (h : rootNotFlat c) : transposeChord c 0 = c := by
  cases hp : parseChord c with
  | none => exact transposeChord_parse_none c 0 hp
  | some rq =>
      obtain ⟨r, q⟩ := rq
      rw [transposeChord_parse_some c r q 0 hp, transposeNote_zero r (h r q hp),
        parseChord_recompose c r q hp]

theorem transposeProgression_zero (p : List String) (h : ∀ x ∈ p, rootNotFlat x) :
    transposeProgression p 0 = p := by
  unfold transposeProgression
  induction p with
  | nil => rfl
  | cons a t ih =>
      simp only [List.map_cons]
      rw [transposeChord_zero a (h a (by simp)), ih (fun x hx => h x (by simp [hx]))]

/-- Keys of the shape actually produced by the pipeline: a chromatic root with
an optional trailing minor marker. -/
def keyOk (k : String) : Prop :=
  k ∈ CHROMATIC_SCALE ∨ ∃ r, r ∈ CHROMATIC_SCALE ∧ k = r ++ "m"

theorem transposeKey_zero (k : String) (h : keyOk k) : transposeKey k 0 = k := by
  rcases h with h | ⟨r, hr, rfl⟩
  · simp only [CHROMATIC_SCALE, List.mem_cons, List.not_mem_nil, or_false] at h
    rcases h with rfl | rfl | rfl | rfl | rfl | rfl | rfl | rfl | rfl | rfl | rfl | rfl <;>
      decide
  · simp only [CHROMATIC_SCALE, List.mem_cons, List.not_mem_nil, or_false] at hr
    rcases hr with rfl | rfl | rfl | rfl | rfl | rfl | rfl | rfl | rfl | rfl | rfl | rfl <;>
      decide

/-- C2 counterexample: transposing the flat-rooted chord `"Db"` by 0 semitones
does not return it unchanged — the engine rewrites the root to its sharp
spelling `"C#"`, so `transpose_chord(c, 0) == c` fails for `c = "Db"`. -/
theorem claim_C2_counterexample :
    transposeChord "Db" 0 ≠ "Db" ∧ transposeChord "Db" 0 = "C#" := by decide

/-- C2 (amended): transposing by 0 semitones is the identity on every chord
whose parsed root is not a flat alias (flat roots are normalized to sharps,
see the counterexample), on progressions of such chords, and on keys of the
shape chromatic-root plus optional minor marker; in `augment_with_transposition`
the semitone-0 copy is the one marked `"original"` (it keeps the progression
and key unchanged under those hypotheses) and all other 11 copies are marked
`"transposed"`. -/
theorem claim_C2_transpose_zero_identity (c : String) (p : List String) (k : String)
    (base : Prog) (hc : rootNotFlat c) (hp : ∀ x ∈ p, rootNotFlat x) (hk : keyOk k)
    (hbp : ∀ x ∈ base.progression, rootNotFlat x) (hbk : keyOk base.key) :
    transposeChord c 0 = c ∧
    transposeProgression p 0 = p ∧
    transposeKey k 0 = k ∧
    (augmentOne base).head? = some { base with source := "original" } ∧
    ∀ pr ∈ (augmentOne base).tail, pr.source = "transposed" := by
  refine ⟨transposeChord_zero c hc, transposeProgression_zero p hp, transposeKey_zero k hk,
    ?_, ?_⟩
  · have hhead : (augmentOne base).head? = some
        { progression := transposeProgression base.progression (((0 : Nat) : Int)),
          key := transposeKey base.key (((0 : Nat) : Int)),
          source := "original" } := rfl
    rw [hhead]
    simp only [Nat.cast_zero]
    rw [transposeProgression_zero base.progression hbp, transposeKey_zero base.key hbk]
  · intro pr hpr
    have hmt : (augmentOne base).tail = ((List.range 12).tail).map
        (fun s => ({ progression := transposeProgression base.progression (s : Int),
                     key := transposeKey base.key (s : Int),
                     source := if s = 0 then "original" else "transposed" } : Prog)) := rfl
    rw [hmt] at hpr
    obtain ⟨s, hs, rfl⟩ := List.mem_map.mp hpr
    have hs0 : s ≠ 0 := by
      have h2 : s ∈ [1, 2, 3, 4, 5, 6, 7, 8, 9, 10, 11] := hs
      simp at h2
      omega
    show (if s = 0 then "original" else "transposed") = "transposed"
    rw [if_neg hs0]

/-- C2 witness instance. -/
theorem claim_C2_witness :
    rootNotFlat "C" ∧ (∀ x ∈ ["C", "G", "F#m"], rootNotFlat x) ∧ keyOk "Am" ∧
    (∀ x ∈ (Prog.mk ["C", "Am", "F", "G"] "C" "seed").progression, rootNotFlat x) ∧
    keyOk (Prog.mk ["C", "Am", "F", "G"] "C" "seed").key ∧
    (transposeChord "C" 0 = "C" ∧
      transposeProgression ["C", "G", "F#m"] 0 = ["C", "G", "F#m"] ∧
      transposeKey "Am" 0 = "Am" ∧
      (augmentOne (Prog.mk ["C", "Am", "F", "G"] "C" "seed")).head?
        = some { Prog.mk ["C", "Am", "F", "G"] "C" "seed" with source := "original" } ∧
      ∀ pr ∈ (augmentOne (Prog.mk ["C", "Am", "F", "G"] "C" "seed")).tail,
        pr.source = "transposed") :=
  ⟨by decide, by decide, Or.inr ⟨"A", by decide, rfl⟩, by decide,
    Or.inl (by decide),
    claim_C2_transpose_zero_identity "C" ["C", "G", "F#m"] "Am"
      (Prog.mk ["C", "Am", "F", "G"] "C" "seed") (by decide) (by decide)
      (Or.inr ⟨"A", by decide, rfl⟩) (by decide) (Or.inl (by decide))⟩

/-- A chord whose parsed quality (if any) does not start with an accidental
character, so that re-parsing the transposed chord splits root and quality at
the same place. -/
def qualityOk (c : String) : Prop :=
  ∀ r q, parseChord c = some (r, q) → ∀ d, q.data.head? = some d → d ≠ 'b' ∧ d ≠ '#'

instance (c : String) : Decidable (qualityOk c) :=
  match hp : parseChord c with
  | none => isTrue (fun r q h => by rw [hp] at h; cases h)
  | some rq =>
    match hd : rq.2.data.head? with
    | none => isTrue (fun r q h d hdq => by
        rw [hp] at h
        obtain rfl : rq = (r, q) := by injection h
        rw [hd] at hdq; cases hdq)
    | some d0 =>
        if hb : d0 = 'b' ∨ d0 = '#' then
          isFalse (fun h => by
            have hc := h rq.1 rq.2 (by rw [hp]) d0 hd
            rcases hb with rfl | rfl
            · exact hc.1 rfl
            · exact hc.2 rfl)
        else
          isTrue (fun r q h d hdq => by
            rw [hp] at h
            obtain rfl : rq = (r, q) := by injection h
            rw [hd] at hdq
            obtain rfl : d0 = d := by injection hdq
            exact ⟨fun hh => hb (Or.inl hh), fun hh => hb (Or.inr hh)⟩)

/-- C4 counterexample: for `c = "A#b"` (root `A#`, quality `b`) and `s = 1`
the transposed chord `"Bb"` re-parses with root `"Bb"` instead of root `"B"`
and quality `"b"`, so the inverse shift lands on `"A"` while
`transpose_chord(c, 0) = "A#b"`: the round-trip fails and the quality suffix
is not preserved. -/
theorem claim_C4_counterexample :
    transposeChord (transposeChord "A#b" 1) ((-(1 : Int))% 12) = "A" ∧
    transposeChord "A#b" 0 = "A#b" ∧
    transposeChord (transposeChord "A#b" 1) ((-(1 : Int))% 12)
      ≠ transposeChord "A#b" 0 := by decide

/-- C4 (amended): for every integer shift `s` and every chord whose parsed
quality does not begin with `b` or `#`, transposing by `s` and then by
`(-s) mod 12` returns the chord with its root normalized to sharp spelling,
i.e. exactly `transpose_chord(c, 0)`, with the quality suffix preserved. -/
theorem claim_C4_transpose_roundtrip (c : String) (s : Int) (hq : qualityOk c) :
    transposeChord (transposeChord c s) ((-s)% 12) = transposeChord c 0 := by
  cases hp : parseChord c with
  | none =>
      rw [transposeChord_parse_none c s hp, transposeChord_parse_none c _ hp,
        transposeChord_parse_none c 0 hp]
  | some rq =>
      obtain ⟨r, q⟩ := rq
      have hq' := hq r q hp
      by_cases hm : normNote r ∈ CHROMATIC_SCALE
      · have hi : CHROMATIC_SCALE.indexOf (normNote r) < 12 := by
          have h := List.indexOf_lt_length.mpr hm
          simpa [CHROMATIC_SCALE] using h
        set i := CHROMATIC_SCALE.indexOf (normNote r) with hidef
        set j := (((i : Int) + s)% 12).toNat with hjdef
        have hj : j < 12 := by
          have h12 : (0 : Int) ≤ ((i : Int) + s)% 12 :=
            Int.emod_nonneg _ (by norm_num)
          have h13 : ((i : Int) + s)% 12 < 12 :=
            Int.emod_lt_of_pos _ (by norm_num)
          omega
        have h2 : transposeNote r s = CHROMATIC_SCALE.getD j "C" := by
          rw [transposeNote_of_norm_mem r s hm]
        have hparse : parseChord (CHROMATIC_SCALE.getD j "C" ++ q)
            = some (CHROMATIC_SCALE.getD j "C", q) := parseChord_chrom_append j hj q hq'
        rw [transposeChord_parse_some c r q s hp, h2,
          transposeChord_parse_some _ _ _ _ hparse,
          transposeNote_chromatic j hj _,
          transposeChord_parse_some c r q 0 hp, transposeNote_of_norm_mem r 0 hm]
        have hij : (((j : Int) + (-s)% 12)% 12).toNat
            = (((i : Int) + 0)% 12).toNat := by omega
        rw [hij]
      · have hr : transposeNote r s = r := transposeNote_of_norm_not_mem r s hm
        have hc : r ++ q = c := parseChord_recompose c r q hp
        rw [transposeChord_parse_some c r q s hp, hr, hc,
          transposeChord_parse_some c r q _ hp,
          transposeNote_of_norm_not_mem r _ hm, hc,
          transposeChord_parse_some c r q 0 hp,
          transposeNote_of_norm_not_mem r 0 hm, hc]

/-- C4 witness instance. -/
theorem claim_C4_witness :
    qualityOk "Dbmaj7" ∧
    transposeChord (transposeChord "Dbmaj7" 5) ((-(5 : Int))% 12)
      = transposeChord "Dbmaj7" 0 :=
  ⟨by decide, claim_C4_transpose_roundtrip "Dbmaj7" 5 (by decide)⟩

/-! ## Variation engine (`augment_variations.py`) -/

/-- Lookup in the `CHORD_VARIATIONS` table (`augment_variations.py`
lines 12-33): quality string to candidate substitute qualities. -/
def CHORD_VARIATIONS (quality : String) : Option (List String) :=
  if quality = "" then some ["maj7", "maj9", "6", "add9", "sus2", "sus4"]
  else if quality = "m" then some ["m7", "m9", "m6", "madd9", "msus2", "msus4"]
  else if quality = "7" then some ["9", "13", "7sus4", "7b9", "7#9"]
  else if quality = "maj7" then some ["maj9", "maj13", "maj7#11"]
  else if quality = "m7" then some ["m9", "m11", "m13"]
  else if quality = "dim" then some ["dim7", "m7b5"]
  else if quality = "aug" then some ["7#5", "maj7#5"]
  else none

/-- The embedding of `get_chord_variations` (lines 55-78).  `augment_variations.py` defines its
own `parse_chord` identical to the one in `augment_transposition.py`, so
`parseChord` is shared.  The call `random.sample(available, n)` is abstracted
by the `select` parameter (its required behaviour — `n` distinct elements of
the population — is hypothesised in the theorems). -/
def getChordVariations (select : List String → Nat → List String)
    (chord : String) (numVariations : Nat) : List String :=
  match parseChord chord with
  | none => [chord]
  | some (root, quality) =>
    match CHORD_VARIATIONS quality with
    | none => [chord]
    | some avail =>
        chord :: (select avail (min numVariations avail.length)).map (fun v => root ++ v)

theorem CHORD_VARIATIONS_nodup (q : String) (avail : List String)
    (h : CHORD_VARIATIONS q = some avail) : avail.Nodup := by
  unfold CHORD_VARIATIONS at h
  split_ifs at h <;>
    first
      | (injection h with h'; subst h'; decide)
      | exact Option.noConfusion h

theorem string_append_left_cancel (r a b : String) (h : r ++ a = r ++ b) : a = b := by
  have h' : r.data ++ a.data = r.data ++ b.data := by
    have hd := congrArg String.data h
    simpa [String.data_append] using hd
  cases a; cases b
  exact congrArg String.mk (List.append_cancel_left h')

/-- C9: if the parsed quality is a key of the variation table,
`get_chord_variations(chord, k)` returns the original chord followed by
exactly `min(k, |candidates|)` pairwise-distinct substitutes, each the chord's
root concatenated with a tabulated candidate quality; if the chord is
empty/unparseable or its quality is untabulated, it returns only `[chord]`.
`select` abstracts `random.sample`: it returns `n` distinct elements of the
population when `n ≤ |population|`. -/
theorem claim_C9_chord_variations
    (select : List String → Nat → List String)
    (hlen : ∀ l n, n ≤ l.length → (select l n).length = n)
    (hmem : ∀ l n, n ≤ l.length → ∀ x ∈ select l n, x ∈ l)
    (hnd : ∀ l n, n ≤ l.length → l.Nodup → (select l n).Nodup)
    (chord root quality : String) (k : Nat) :
    (∀ avail, parseChord chord = some (root, quality) →
       CHORD_VARIATIONS quality = some avail →
       ∃ subs, getChordVariations select chord k = chord :: subs ∧
         subs.length = min k avail.length ∧ subs.Nodup ∧
         ∀ x ∈ subs, ∃ v ∈ avail, x = root ++ v) ∧
    (parseChord chord = none → getChordVariations select chord k = [chord]) ∧
    (parseChord chord = some (root, quality) → CHORD_VARIATIONS quality = none →
       getChordVariations select chord k = [chord]) := by
  refine ⟨?_, ?_, ?_⟩
  · intro avail hp hv
    refine ⟨(select avail (min k avail.length)).map (fun v => root ++ v), ?_, ?_, ?_, ?_⟩
    · simp [getChordVariations, hp, hv]
    · rw [List.length_map, hlen _ _ (min_le_right _ _)]
    · exact (hnd _ _ (min_le_right _ _) (CHORD_VARIATIONS_nodup _ _ hv)).map
        (fun a b hab => string_append_left_cancel root a b hab)
    · intro x hx
      obtain ⟨v, hv', rfl⟩ := List.mem_map.mp hx
      exact ⟨v, hmem _ _ (min_le_right _ _) v hv', rfl⟩
  · intro hp; simp [getChordVariations, hp]
  · intro hp hv; simp [getChordVariations, hp, hv]

/-- C9 witness instance, with `select` instantiated by `take`. -/
theorem claim_C9_witness :
    (∀ l : List String, ∀ n, n ≤ l.length → (l.take n).length = n) ∧
    (∀ l : List String, ∀ n, n ≤ l.length → ∀ x ∈ l.take n, x ∈ l) ∧
    (∀ l : List String, ∀ n, n ≤ l.length → l.Nodup → (l.take n).Nodup) ∧
    ((∀ avail, parseChord "C" = some ("C", "") →
       CHORD_VARIATIONS "" = some avail →
       ∃ subs, getChordVariations (fun l n => l.take n) "C" 2 = "C" :: subs ∧
         subs.length = min 2 avail.length ∧ subs.Nodup ∧
         ∀ x ∈ subs, ∃ v ∈ avail, x = "C" ++ v) ∧
     (parseChord "C" = none → getChordVariations (fun l n => l.take n) "C" 2 = ["C"]) ∧
     (parseChord "C" = some ("C", "") → CHORD_VARIATIONS "" = none →
       getChordVariations (fun l n => l.take n) "C" 2 = ["C"])) := by
  have hlen : ∀ l : List String, ∀ n, n ≤ l.length → (l.take n).length = n := by
    intro l n h; simp [List.length_take]; omega
  have hmem : ∀ l : List String, ∀ n, n ≤ l.length → ∀ x ∈ l.take n, x ∈ l := by
    intro l n _ x hx; exact (List.take_sublist n l).subset hx
  have hnd : ∀ l : List String, ∀ n, n ≤ l.length → l.Nodup → (l.take n).Nodup := by
    intro l n _ hl; exact hl.sublist (List.take_sublist n l)
  exact ⟨hlen, hmem, hnd,
    claim_C9_chord_variations (fun l n => l.take n) hlen hmem hnd "C" "C" "" 2⟩

/-! ## Vocabulary builder / codec (`data_preprocessing.py`) -/

/-- The special tokens of `ChordProgressionPreprocessor` (lines 33-37). -/
def PAD_TOKEN : String := "<PAD>"

def START_TOKEN : String := "<START>"

def END_TOKEN : String := "<END>"

def UNK_TOKEN : String := "<UNK>"

/-- A raw progression record with the fields `build_vocabularies`
(lines 39-86) reads. -/
structure RawProg where
  progression : List String
  genre : String
  mood : String
  key : String
  scaleType : String

/-- Lexicographic comparison of strings by their character lists — the order
Python's `sorted` uses on strings.  (Equivalent to `String.le` by
`String.le_iff_toList_le`, but kernel-computable.) -/
def strLe (a b : String) : Prop := a.data ≤ b.data

instance : DecidableRel strLe :=
  fun a b => inferInstanceAs (Decidable (a.data ≤ b.data))

instance : IsTotal String strLe := ⟨fun a b => le_total a.data b.data⟩

instance : IsTrans String strLe := ⟨fun _ _ _ h1 h2 => le_trans h1 h2⟩

instance : IsAntisymm String strLe := ⟨fun _ _ h1 h2 => String.ext (le_antisymm h1 h2)⟩

/-- Python `sorted(set(...))`: the sorted list of distinct values. -/
def sortedUnique (l : List String) : List String :=
  (l.dedup).insertionSort strLe

/-- A Python dict built as `{token: idx for idx, token in enumerate(l)}`,
looked up at `c`: the *last* index at which `c` occurs (later enumerate
entries overwrite earlier ones).  `i` is the index of the head of the
remaining list. -/
def dictLookupAux (c : String) : List String → Nat → Option Nat
  | [], _ => none
  | x :: xs, i =>
      match dictLookupAux c xs (i + 1) with
      | some j => some j
      | none => if x = c then some i else none

/-- The `chord_to_id` lookup (line 62): dict from enumerating the token list. -/
def dictLookup (l : List String) (c : String) : Option Nat :=
  dictLookupAux c l 0

/-- The `id_to_chord` lookup (line 63): the inverse dict `{idx: chord}` built from
`chord_to_id.items()`; id `i` maps to the token at position `i` provided the
forward dict maps that token back to `i`. -/
def idToChord (l : List String) (i : Nat) : Option String :=
  match l[i]? with
  | some c => if dictLookup l c = some i then some c else none
  | none => none

/-- All chord tokens of a corpus, in occurrence order (the Python code
collects them into a set; only membership matters). -/
def corpusChords (ps : List RawProg) : List String :=
  (ps.map (·.progression)).flatten

/-- The chord token list of `build_vocabularies` (lines 58-60): the four
special tokens followed by the sorted distinct corpus chords. -/
def buildChordList (ps : List RawProg) : List String :=
  [PAD_TOKEN, START_TOKEN, END_TOKEN, UNK_TOKEN] ++ sortedUnique (corpusChords ps)

/-- A metadata vocabulary (lines 77-80): sorted distinct values, token at
position `i` having id `i`. -/
def buildMetaVocab (vals : List String) : List String :=
  sortedUnique vals

/-- The embedding of `encode_progression` (lines 88-96): a known chord maps to its id, an
unknown one to the id of `<UNK>` (always present in a built vocabulary, so
the `getD 0` default never fires there). -/
def encodeProgression (l : List String) (p : List String) : List Nat :=
  p.map (fun c =>
    match dictLookup l c with
    | some i => i
    | none => (dictLookup l UNK_TOKEN).getD 0)

/-- The embedding of `decode_progression` (lines 98-100): `id_to_chord.get(idx, UNK_TOKEN)`. -/
def decodeProgression (l : List String) (ids : List Nat) : List String :=
  ids.map (fun i => (idToChord l i).getD UNK_TOKEN)

/-- The embedding of `pad_sequence` (lines 102-117). -/
def padSequence (padId : Nat) (sequence : List Nat) (maxLength : Nat) : List Nat :=
  if sequence.length > maxLength then sequence.take maxLength
  else if sequence.length < maxLength then
    sequence ++ List.replicate (maxLength - sequence.length) padId
  else sequence

/-! ## Dataset splitter (`data_preprocessing.py` lines 180-208) -/

/-- The embedding of `split_dataset`: the `random.shuffle` of a copy of the data is abstracted
by the `shuffle` parameter (seed and list to permuted list); the failed
`assert` on the ratio sum becomes `none`.  Cut points are
`int(N*train_ratio)` and that plus `int(N*val_ratio)` (`int` truncation
equals `floor` for the non-negative products used here). -/
def splitDataset {α : Type} (shuffle : Nat → List α → List α) (data : List α)
    (trainRatio valRatio testRatio : ℚ) (seed : Nat) :
    Option (List α × List α × List α) :=
  if |trainRatio + valRatio + testRatio - 1| < 1 / 1000000 then
    let shuffled := shuffle seed data
    let nTotal := shuffled.length
    let nTrain := (⌊(nTotal : ℚ) * trainRatio⌋).toNat
    let nVal := (⌊(nTotal : ℚ) * valRatio⌋).toNat
    some (shuffled.take nTrain, (shuffled.drop nTrain).take nVal,
      shuffled.drop (nTrain + nVal))
  else none

theorem dictLookupAux_spec (c : String) (l : List String) :
    ∀ i j, dictLookupAux c l i = some j → i ≤ j ∧ l[j - i]? = some c := by
  induction l with
  | nil => intro i j h; cases h
  | cons x xs ih =>
      intro i j h
      unfold dictLookupAux at h
      cases hrec : dictLookupAux c xs (i + 1) with
      | some j' =>
          rw [hrec] at h
          injection h with h'
          rw [h'] at hrec
          obtain ⟨h1, h2⟩ := ih (i + 1) j hrec
          refine ⟨by omega, ?_⟩
          have he : j - i = (j - (i + 1)) + 1 := by omega
          rw [he, List.getElem?_cons_succ]
          exact h2
      | none =>
          rw [hrec] at h
          by_cases hx : x = c
          · rw [if_pos hx] at h
            injection h with h'
            subst h'
            simp [hx]
          · rw [if_neg hx] at h
            cases h

theorem dictLookupAux_isSome (c : String) (l : List String) (h : c ∈ l) :
    ∀ i, (dictLookupAux c l i).isSome := by
  induction l with
  | nil => cases h
  | cons x xs ih =>
      intro i
      unfold dictLookupAux
      cases hrec : dictLookupAux c xs (i + 1) with
      | some j => simp
      | none =>
          rcases List.mem_cons.mp h with rfl | hmem
          · simp
          · have hs := ih hmem (i + 1)
            rw [hrec] at hs
            simp at hs

theorem dictLookupAux_eq_none (c : String) (l : List String) (h : c ∉ l) :
    ∀ i, dictLookupAux c l i = none := by
  induction l with
  | nil => intro i; rfl
  | cons x xs ih =>
      intro i
      unfold dictLookupAux
      rw [ih (fun hm => h (List.mem_cons_of_mem x hm)) (i + 1)]
      rw [if_neg (fun hx => h (by rw [← hx]; exact List.mem_cons_self x xs))]

theorem dictLookupAux_of_nodup (c : String) (l : List String) (hl : l.Nodup) :
    ∀ k i, l[k]? = some c → dictLookupAux c l i = some (i + k) := by
  induction l with
  | nil => intro k i h; simp at h
  | cons x xs ih =>
      obtain ⟨hx, hxs⟩ := List.nodup_cons.mp hl
      intro k i h
      cases k with
      | zero =>
          simp only [List.getElem?_cons_zero, Option.some.injEq] at h
          unfold dictLookupAux
          rw [dictLookupAux_eq_none c xs (by rw [← h]; exact hx) (i + 1)]
          rw [if_pos h]
          exact congrArg some (by omega)
      | succ k' =>
          have h' : xs[k']? = some c := by simpa using h
          unfold dictLookupAux
          rw [ih hxs k' (i + 1) h']
          exact congrArg some (by omega)

theorem dictLookup_get (l : List String) (c : String) (i : Nat)
    (h : dictLookup l c = some i) : l[i]? = some c := by
  have hs := dictLookupAux_spec c l 0 i h
  simpa using hs.2

theorem dictLookup_isSome_of_mem (l : List String) (c : String) (h : c ∈ l) :
    (dictLookup l c).isSome := dictLookupAux_isSome c l h 0

theorem dictLookup_eq_none_of_not_mem (l : List String) (c : String) (h : c ∉ l) :
    dictLookup l c = none := dictLookupAux_eq_none c l h 0

theorem dictLookup_of_nodup (l : List String) (hl : l.Nodup) (k : Nat) (c : String)
    (h : l[k]? = some c) : dictLookup l c = some k := by
  have hs := dictLookupAux_of_nodup c l hl k 0 h
  simpa using hs

theorem sortedUnique_sorted (l : List String) :
    (sortedUnique l).Sorted strLe :=
  List.sorted_insertionSort _ _

theorem sorted_le_of_sorted_strLe (l : List String) (h : l.Sorted strLe) :
    l.Sorted (· ≤ ·) :=
  h.imp (fun hab => String.le_iff_toList_le.mpr hab)

theorem sortedUnique_nodup (l : List String) : (sortedUnique l).Nodup :=
  (List.perm_insertionSort _ _).nodup_iff.mpr l.nodup_dedup

theorem mem_sortedUnique (l : List String) (x : String) :
    x ∈ sortedUnique l ↔ x ∈ l := by
  unfold sortedUnique
  rw [(List.perm_insertionSort _ _).mem_iff, List.mem_dedup]

theorem sortedUnique_canonical (l₁ l₂ : List String)
    (h : ∀ x, x ∈ l₁ ↔ x ∈ l₂) : sortedUnique l₁ = sortedUnique l₂ := by
  apply List.eq_of_perm_of_sorted ?_ (sortedUnique_sorted l₁) (sortedUnique_sorted l₂)
  rw [List.perm_ext_iff_of_nodup (sortedUnique_nodup l₁) (sortedUnique_nodup l₂)]
  intro a
  rw [mem_sortedUnique, mem_sortedUnique]
  exact h a

theorem buildChordList_nodup (ps : List RawProg)
    (h : ∀ t ∈ [PAD_TOKEN, START_TOKEN, END_TOKEN, UNK_TOKEN], t ∉ corpusChords ps) :
    (buildChordList ps).Nodup := by
  unfold buildChordList
  rw [List.nodup_append]
  refine ⟨by decide, sortedUnique_nodup _, ?_⟩
  intro a ha hb
  exact h a ha ((mem_sortedUnique _ _).mp hb)

theorem unk_mem_buildChordList (ps : List RawProg) : UNK_TOKEN ∈ buildChordList ps := by
  unfold buildChordList
  exact List.mem_append_left _ (by decide)

/-- C6 counterexample: a corpus containing the literal chord token `"<PAD>"`
makes the dict comprehension overwrite the special entry — the token list is
`["<PAD>", "<START>", "<END>", "<UNK>", "<PAD>"]` and `chord_to_id["<PAD>"]`
becomes 4, not 0. -/
theorem claim_C6_counterexample :
    dictLookup (buildChordList [⟨["<PAD>"], "pop", "happy", "C", "major"⟩]) "<PAD>"
      = some 4 ∧
    dictLookup (buildChordList [⟨["<PAD>"], "pop", "happy", "C", "major"⟩]) "<PAD>"
      ≠ some 0 := by decide

/-- C6 (amended): for every corpus none of whose chords equals one of the four
special tokens, `build_vocabularies` assigns `<PAD>`, `<START>`, `<END>`,
`<UNK>` exactly ids 0, 1, 2, 3 before all corpus-derived tokens; the
corpus-derived block (ids 4 and up) is the sorted deduplicated chord list, and
each corpus chord's id is 4 plus its rank in that sorted list.  Each metadata
axis (built by `sorted(set(values))`) assigns each value its rank in sorted
order.  Rebuilding from any corpus with the same chord set reproduces the same
token list, hence the same token-to-id mapping. -/
theorem claim_C6_vocabulary (ps : List RawProg)
    (h : ∀ t ∈ [PAD_TOKEN, START_TOKEN, END_TOKEN, UNK_TOKEN], t ∉ corpusChords ps) :
    dictLookup (buildChordList ps) PAD_TOKEN = some 0 ∧
    dictLookup (buildChordList ps) START_TOKEN = some 1 ∧
    dictLookup (buildChordList ps) END_TOKEN = some 2 ∧
    dictLookup (buildChordList ps) UNK_TOKEN = some 3 ∧
    (buildChordList ps).drop 4 = sortedUnique (corpusChords ps) ∧
    ((buildChordList ps).drop 4).Sorted (· ≤ ·) ∧
    (∀ c ∈ corpusChords ps,
      dictLookup (buildChordList ps) c
        = some (4 + (sortedUnique (corpusChords ps)).indexOf c)) ∧
    (∀ vals : List String, (buildMetaVocab vals).Sorted (· ≤ ·) ∧
      ∀ v ∈ vals, dictLookup (buildMetaVocab vals) v
        = some ((buildMetaVocab vals).indexOf v)) ∧
    (∀ ps₂ : List RawProg, (∀ x, x ∈ corpusChords ps ↔ x ∈ corpusChords ps₂) →
      buildChordList ps = buildChordList ps₂) := by
  have hnd := buildChordList_nodup ps h
  have hg0 : (buildChordList ps)[0]? = some PAD_TOKEN := by simp [buildChordList]
  have hg1 : (buildChordList ps)[1]? = some START_TOKEN := by simp [buildChordList]
  have hg2 : (buildChordList ps)[2]? = some END_TOKEN := by simp [buildChordList]
  have hg3 : (buildChordList ps)[3]? = some UNK_TOKEN := by simp [buildChordList]
  refine ⟨dictLookup_of_nodup _ hnd 0 _ hg0, dictLookup_of_nodup _ hnd 1 _ hg1,
    dictLookup_of_nodup _ hnd 2 _ hg2, dictLookup_of_nodup _ hnd 3 _ hg3,
    rfl, sorted_le_of_sorted_strLe _ (sortedUnique_sorted _), ?_, ?_, ?_⟩
  · intro c hc
    have hmem : c ∈ sortedUnique (corpusChords ps) := (mem_sortedUnique _ _).mpr hc
    apply dictLookup_of_nodup _ hnd
    have h4 : ([PAD_TOKEN, START_TOKEN, END_TOKEN, UNK_TOKEN] : List String).length
        ≤ 4 + (sortedUnique (corpusChords ps)).indexOf c := by simp
    rw [buildChordList, List.getElem?_append_right h4]
    simpa using List.getElem?_indexOf hmem
  · intro vals
    refine ⟨sorted_le_of_sorted_strLe _ (sortedUnique_sorted _), ?_⟩
    intro v hv
    have hmem : v ∈ buildMetaVocab vals := (mem_sortedUnique _ _).mpr hv
    exact dictLookup_of_nodup _ (sortedUnique_nodup _) _ _ (List.getElem?_indexOf hmem)
  · intro ps₂ hx
    unfold buildChordList
    rw [sortedUnique_canonical _ _ hx]

/-- C6 witness instance. -/
theorem claim_C6_witness :
    (∀ t ∈ [PAD_TOKEN, START_TOKEN, END_TOKEN, UNK_TOKEN],
      t ∉ corpusChords [⟨["C", "G", "Am"], "pop", "happy", "C", "major"⟩]) ∧
    dictLookup (buildChordList [⟨["C", "G", "Am"], "pop", "happy", "C", "major"⟩])
      PAD_TOKEN = some 0 :=
  ⟨by decide,
    (claim_C6_vocabulary [⟨["C", "G", "Am"], "pop", "happy", "C", "major"⟩]
      (by decide)).1⟩

theorem decode_encode (l : List String) (p : List String) (h : ∀ c ∈ p, c ∈ l) :
    decodeProgression l (encodeProgression l p) = p := by
  induction p with
  | nil => rfl
  | cons a t ih =>
      have ha : a ∈ l := h a (by simp)
      obtain ⟨i, hi⟩ := Option.isSome_iff_exists.mp (dictLookup_isSome_of_mem l a ha)
      have hget : l[i]? = some a := dictLookup_get l a i hi
      have hstep : decodeProgression l (encodeProgression l (a :: t))
          = ((idToChord l i).getD UNK_TOKEN)
              :: decodeProgression l (encodeProgression l t) := by
        simp [encodeProgression, decodeProgression, hi]
      have hid : idToChord l i = some a := by
        unfold idToChord
        rw [hget]
        show (if dictLookup l a = some i then some a else none) = some a
        rw [if_pos hi]
      rw [hstep, hid, ih (fun c hc => h c (by simp [hc]))]
      rfl

/-- C7: with a vocabulary built by `build_vocabularies`, encoding then
decoding a progression whose chords are all in the vocabulary returns it
exactly; a chord not in the vocabulary encodes to the id of `<UNK>` and
decodes back to the `<UNK>` token, which differs from the original string. -/
theorem claim_C7_encode_decode (ps : List RawProg) (p : List String)
    (hall : ∀ c ∈ p, c ∈ buildChordList ps) :
    decodeProgression (buildChordList ps) (encodeProgression (buildChordList ps) p) = p ∧
    ∀ c, c ∉ buildChordList ps →
      ∃ u, dictLookup (buildChordList ps) UNK_TOKEN = some u ∧
        encodeProgression (buildChordList ps) [c] = [u] ∧
        decodeProgression (buildChordList ps) [u] = [UNK_TOKEN] ∧
        UNK_TOKEN ≠ c := by
  refine ⟨decode_encode _ p hall, ?_⟩
  intro c hc
  obtain ⟨u, hu⟩ := Option.isSome_iff_exists.mp
    (dictLookup_isSome_of_mem _ _ (unk_mem_buildChordList ps))
  have hnone : dictLookup (buildChordList ps) c = none :=
    dictLookup_eq_none_of_not_mem _ c hc
  have hget : (buildChordList ps)[u]? = some UNK_TOKEN := dictLookup_get _ _ u hu
  have hid : idToChord (buildChordList ps) u = some UNK_TOKEN := by
    unfold idToChord
    rw [hget]
    show (if dictLookup (buildChordList ps) UNK_TOKEN = some u then some UNK_TOKEN
      else none) = some UNK_TOKEN
    rw [if_pos hu]
  refine ⟨u, hu, ?_, ?_, ?_⟩
  · simp [encodeProgression, hnone, hu]
  · simp [decodeProgression, hid]
  · intro he
    exact hc (he ▸ unk_mem_buildChordList ps)

/-- C7 witness instance. -/
theorem claim_C7_witness :
    (∀ c ∈ ["C", "G"], c ∈ buildChordList [⟨["C", "G"], "pop", "happy", "C", "major"⟩]) ∧
    decodeProgression (buildChordList [⟨["C", "G"], "pop", "happy", "C", "major"⟩])
      (encodeProgression (buildChordList [⟨["C", "G"], "pop", "happy", "C", "major"⟩])
        ["C", "G"]) = ["C", "G"] :=
  ⟨by decide,
    (claim_C7_encode_decode [⟨["C", "G"], "pop", "happy", "C", "major"⟩]
      ["C", "G"] (by decide)).1⟩

/-- C8: `pad_sequence` equals the input truncated to the target length
followed by right-padding with the PAD id, and in particular always has
length exactly `maxLength`: longer inputs keep their prefix, shorter inputs
are right-padded, exact-length inputs pass through unchanged. -/
theorem claim_C8_pad_sequence (padId : Nat) (s : List Nat) (L : Nat) :
    padSequence padId s L = s.take L ++ List.replicate (L - s.length) padId ∧
    (padSequence padId s L).length = L := by
  have heq : padSequence padId s L = s.take L ++ List.replicate (L - s.length) padId := by
    unfold padSequence
    split_ifs with h1 h2
    · have h0 : L - s.length = 0 := by omega
      rw [h0, List.replicate_zero, List.append_nil]
    · rw [List.take_of_length_le (by omega)]
    · have h0 : L - s.length = 0 := by omega
      rw [List.take_of_length_le (by omega), h0, List.replicate_zero, List.append_nil]
  refine ⟨heq, ?_⟩
  rw [heq]
  simp only [List.length_append, List.length_take, List.length_replicate]
  omega

/-- C5: `split_dataset` aborts (failed `assert`) iff the three ratios do not
sum to 1 within 1e-6; otherwise it cuts the shuffled copy at
`floor(N*train_ratio)` and `floor(N*train_ratio)+floor(N*val_ratio)` with the
remainder as test, so the three parts concatenate to a permutation of the
input (pairwise disjoint whenever the input has no duplicates), the output is
a function of the shuffled list alone (deterministic for a fixed seed and
input), and with ratios (0.8, 0.15, 0.05) on 1000 samples the sizes are
800/150/50.  `shuffle` abstracts the seeded `random.shuffle`; it is
hypothesised to permute its input. -/
theorem claim_C5_split_dataset {α : Type} [DecidableEq α]
    (shuffle : Nat → List α → List α)
    (hshuffle : ∀ s l, (shuffle s l).Perm l)
    (data : List α) (trainRatio valRatio testRatio : ℚ) (seed : Nat) :
    (¬ |trainRatio + valRatio + testRatio - 1| < 1 / 1000000 →
      splitDataset shuffle data trainRatio valRatio testRatio seed = none) ∧
    (|trainRatio + valRatio + testRatio - 1| < 1 / 1000000 →
      ∃ tr v te, splitDataset shuffle data trainRatio valRatio testRatio seed
          = some (tr, v, te) ∧
        (tr ++ v ++ te).Perm data ∧
        (data.Nodup → tr.Disjoint v ∧ tr.Disjoint te ∧ v.Disjoint te) ∧
        tr.length = min (⌊(data.length : ℚ) * trainRatio⌋).toNat data.length ∧
        v.length = min (⌊(data.length : ℚ) * valRatio⌋).toNat
          (data.length - tr.length) ∧
        te.length = data.length - (⌊(data.length : ℚ) * trainRatio⌋).toNat
          - (⌊(data.length : ℚ) * valRatio⌋).toNat) ∧
    (∀ shuffle₂ : Nat → List α → List α, shuffle₂ seed data = shuffle seed data →
      splitDataset shuffle₂ data trainRatio valRatio testRatio seed
        = splitDataset shuffle data trainRatio valRatio testRatio seed) ∧
    (data.length = 1000 → trainRatio = 8 / 10 → valRatio = 15 / 100 →
      testRatio = 5 / 100 →
      ∃ tr v te, splitDataset shuffle data trainRatio valRatio testRatio seed
          = some (tr, v, te) ∧
        tr.length = 800 ∧ v.length = 150 ∧ te.length = 50) := by
  have hlen : (shuffle seed data).length = data.length := (hshuffle seed data).length_eq
  refine ⟨?_, ?_, ?_, ?_⟩
  · intro hbad
    unfold splitDataset
    rw [if_neg hbad]
  · intro hok
    unfold splitDataset
    rw [if_pos hok]
    have hflT : (⌊((shuffle seed data).length : ℚ) * trainRatio⌋).toNat
        = (⌊(data.length : ℚ) * trainRatio⌋).toNat := by rw [hlen]
    have hflV : (⌊((shuffle seed data).length : ℚ) * valRatio⌋).toNat
        = (⌊(data.length : ℚ) * valRatio⌋).toNat := by rw [hlen]
    refine ⟨_, _, _, rfl, ?_, ?_, ?_, ?_, ?_⟩
    · have hdd : (shuffle seed data).drop
          ((⌊((shuffle seed data).length : ℚ) * trainRatio⌋).toNat
            + (⌊((shuffle seed data).length : ℚ) * valRatio⌋).toNat)
          = (((shuffle seed data).drop
              (⌊((shuffle seed data).length : ℚ) * trainRatio⌋).toNat).drop
              (⌊((shuffle seed data).length : ℚ) * valRatio⌋).toNat) := by
        rw [List.drop_drop]
      rw [List.append_assoc, hdd, List.take_append_drop, List.take_append_drop]
      exact hshuffle seed data
    · intro hnd
      have hsnd : (shuffle seed data).Nodup := (hshuffle seed data).nodup_iff.mpr hnd
      have hdd : (shuffle seed data).drop
          ((⌊((shuffle seed data).length : ℚ) * trainRatio⌋).toNat
            + (⌊((shuffle seed data).length : ℚ) * valRatio⌋).toNat)
          = (((shuffle seed data).drop
              (⌊((shuffle seed data).length : ℚ) * trainRatio⌋).toNat).drop
              (⌊((shuffle seed data).length : ℚ) * valRatio⌋).toNat) := by
        rw [List.drop_drop]
      have hnd1 : ((shuffle seed data).take
            (⌊((shuffle seed data).length : ℚ) * trainRatio⌋).toNat ++
          ((shuffle seed data).drop
            (⌊((shuffle seed data).length : ℚ) * trainRatio⌋).toNat)).Nodup := by
        rw [List.take_append_drop]
        exact hsnd
      rw [List.nodup_append] at hnd1
      obtain ⟨_, hndDrop, hdisj1⟩ := hnd1
      have hnd2 : ((((shuffle seed data).drop
              (⌊((shuffle seed data).length : ℚ) * trainRatio⌋).toNat).take
              (⌊((shuffle seed data).length : ℚ) * valRatio⌋).toNat) ++
          (((shuffle seed data).drop
              (⌊((shuffle seed data).length : ℚ) * trainRatio⌋).toNat).drop
              (⌊((shuffle seed data).length : ℚ) * valRatio⌋).toNat)).Nodup := by
        rw [List.take_append_drop]
        exact hndDrop
      rw [List.nodup_append] at hnd2
      obtain ⟨_, _, hdisj2⟩ := hnd2
      refine ⟨?_, ?_, ?_⟩
      · intro a ha hb
        have hb' := (List.take_sublist _ _).subset hb
        exact hdisj1 ha hb'
      · intro a ha hb
        rw [hdd] at hb
        have hb' := (List.drop_sublist _ _).subset hb
        exact hdisj1 ha hb'
      · intro a ha hb
        rw [hdd] at hb
        exact hdisj2 ha hb
    · rw [List.length_take, hlen]
    · rw [List.length_take, List.length_drop, hlen, List.length_take, hlen]
      omega
    · rw [List.length_drop, hlen]
      omega
  · intro shuffle₂ heq
    unfold splitDataset
    rw [heq]
  · intro hn ht hv hte
    subst ht; subst hv; subst hte
    have hok : |(8 : ℚ) / 10 + 15 / 100 + 5 / 100 - 1| < 1 / 1000000 := by norm_num
    unfold splitDataset
    rw [if_pos hok]
    have hfT : (⌊((1000 : Nat) : ℚ) * (8 / 10)⌋).toNat = 800 := by
      have hf : ⌊((1000 : Nat) : ℚ) * (8 / 10)⌋ = 800 := by norm_num
      rw [hf]; rfl
    have hfV : (⌊((1000 : Nat) : ℚ) * (15 / 100)⌋).toNat = 150 := by
      have hf : ⌊((1000 : Nat) : ℚ) * (15 / 100)⌋ = 150 := by norm_num
      rw [hf]; rfl
    refine ⟨_, _, _, rfl, ?_, ?_, ?_⟩
    · rw [List.length_take, hlen, hn, hfT]
      omega
    · rw [List.length_take, List.length_drop, hlen, hn, hfT, hfV]
      omega
    · rw [List.length_drop, hlen, hn, hfT, hfV]

/-- C5 witness instance, with `shuffle` instantiated by the identity
permutation. -/
theorem claim_C5_witness :
    (∀ s : Nat, ∀ l : List Nat, ((fun (_ : Nat) (l : List Nat) => l) s l).Perm l) ∧
    ((List.range 1000).length = 1000 ∧ (8 : ℚ) / 10 = 8 / 10 ∧
      (15 : ℚ) / 100 = 15 / 100 ∧ (5 : ℚ) / 100 = 5 / 100) ∧
    ∃ tr v te, splitDataset (fun _ l => l) (List.range 1000)
        (8 / 10) (15 / 100) (5 / 100) 42 = some (tr, v, te) ∧
      tr.length = 800 ∧ v.length = 150 ∧ te.length = 50 :=
  ⟨fun _ _ => List.Perm.refl _, ⟨by simp, rfl, rfl, rfl⟩,
    (claim_C5_split_dataset (fun _ l => l) (fun _ _ => List.Perm.refl _)
      (List.range 1000) (8 / 10) (15 / 100) (5 / 100) 42).2.2.2
      (by simp) rfl rfl rfl⟩

/-! ## Autoregressive generator (`evaluate_model.py`, `data_generator.py`) -/

/-- The softmax step of `_sample_with_temperature` (`evaluate_model.py`
lines 154-156): subtract the maximum, exponentiate, normalize by the sum.
`E` abstracts `np.exp` (real exponentiation has no exact rational
embedding); the theorems state which of its properties they use. -/
def softmax (E : ℚ → ℚ) (scores : List ℚ) : List ℚ :=
  let m := (scores.max?).getD 0
  let exps := scores.map (fun x => E (x - m))
  let total := exps.sum
  exps.map (fun x => x / total)

/-- Running prefix sums — the CDF `np.random.choice` draws against. -/
def cumsum : List ℚ → List ℚ
  | [] => []
  | x :: xs => x :: (cumsum xs).map (fun y => x + y)

/-- Draw one index from a categorical distribution given a uniform draw
`u ∈ [0,1)`: the first index whose CDF value exceeds `u`, clamped to the last
index (the semantics of `np.random.choice(len(p), p=p)`). -/
def categoricalDraw (probs : List ℚ) (u : ℚ) : Nat :=
  match (cumsum probs).findIdx? (fun c => decide (u < c)) with
  | some i => i
  | none => probs.length - 1

/-- The embedding of `_sample_with_temperature` (lines 148-159): divide the model's scores by
the temperature, apply the max-subtracting softmax, draw one id from the
resulting categorical distribution. -/
def sampleWithTemperature (E : ℚ → ℚ) (scores : List ℚ) (temperature u : ℚ) : Nat :=
  categoricalDraw (softmax E (scores.map (fun x => x / temperature))) u

/-- The initial sequence of `generate_progression` (lines 101-109): seed
chords are encoded with `chord_to_id.get(c, 0)` (default 0, the PAD id); an
absent or empty seed list (`if seed_chords:` is falsy for `[]`) starts from
`chord_to_id.get('<START>', 1)`. -/
def initSequence (chordToIdF : String → Option Nat)
    (seedChords : Option (List String)) : List Nat :=
  match seedChords with
  | some seeds =>
      if seeds ≠ [] then seeds.map (fun c => (chordToIdF c).getD 0)
      else [(chordToIdF "<START>").getD 1]
  | none => [(chordToIdF "<START>").getD 1]

/-- The embedding of `InferenceGenerator.prepare_input` (`data_generator.py` lines 182-215):
right-pad the id sequence with zeros to `max_sequence_length`.  When the
sequence is longer than the frame, the numpy assignment
`chord_sequence[0, :len(seed_chords)] = seed_chords` raises a broadcast
error, modelled as `none`. -/
def prepareInput (maxLen : Nat) (seedChords : List Nat) : Option (List Nat) :=
  if seedChords.length ≤ maxLen then
    some (seedChords ++ List.replicate (maxLen - seedChords.length) 0)
  else none

/-- One step's sampled id (`evaluate_model.py` lines 124-135): read the
model's distribution at position `len(sequence)-1`, clamped to the last
output frame, and sample with temperature. -/
def nextTokenId (preds : List (List ℚ)) (seqLen : Nat) (E : ℚ → ℚ)
    (t u : ℚ) : Nat :=
  let pos := if seqLen - 1 ≥ preds.length then preds.length - 1 else seqLen - 1
  sampleWithTemperature E (preds.getD pos []) t u

/-- The generation loop of `generate_progression` (lines 111-146): `n` is the
remaining iteration count, `step` indexes the stream `us` of uniform draws,
`seq` the evolving id sequence, `acc` the chords generated so far.  A sampled
PAD (0) or END (2) id halts immediately without appending; otherwise the id
and its decoded chord (`id_to_chord.get(id, '<UNK>')`) are appended. -/
def genLoop (predict : List Nat → List (List ℚ)) (E : ℚ → ℚ) (t : ℚ)
    (us : Nat → ℚ) (idToChordF : Nat → Option String) (maxLen : Nat) :
    Nat → Nat → List Nat → List String → Option (List String)
  | 0, _, _, acc => some acc
  | n + 1, step, seq, acc =>
      match prepareInput maxLen seq with
      | none => none
      | some frame =>
          let nid := nextTokenId (predict frame) seq.length E t (us step)
          if nid = 0 ∨ nid = 2 then some acc
          else genLoop predict E t us idToChordF maxLen n (step + 1) (seq ++ [nid])
            (acc ++ [(idToChordF nid).getD "<UNK>"])

/-- The embedding of `generate_progression` (lines 70-146) with the trained model abstracted
as `predict` (returning `predictions[0]`, one score vector per frame
position), the exponential as `E`, the per-step uniform draws as `us`, and
the persisted vocabulary as lookup functions.  The metadata conditioning ids
are fixed for the whole generation and are part of the opaque `predict`. -/
def generateProgression (predict : List Nat → List (List ℚ)) (E : ℚ → ℚ)
    (chordToIdF : String → Option Nat) (idToChordF : Nat → Option String)
    (maxLen numChords : Nat) (t : ℚ) (us : Nat → ℚ)
    (seedChords : Option (List String)) : Option (List String) :=
  genLoop predict E t us idToChordF maxLen numChords 0
    (initSequence chordToIdF seedChords) []

/-- A distribution that assigns probability exactly 1 to index `k` and 0
everywhere else. -/
def ConcentratedAt (probs : List ℚ) (k : Nat) : Prop :=
  probs[k]? = some 1 ∧ ∀ j x, j ≠ k → probs[j]? = some x → x = 0

instance (probs : List ℚ) (k : Nat) : Decidable (ConcentratedAt probs k) :=
  decidable_of_iff (probs[k]? = some 1 ∧
      ∀ j ∈ List.range probs.length, j ≠ k → probs[j]? = some 0) (by
    constructor
    · rintro ⟨h1, h2⟩
      refine ⟨h1, ?_⟩
      intro j x hj hx
      by_cases hjl : j < probs.length
      · have hz := h2 j (List.mem_range.mpr hjl) hj
        rw [hz] at hx
        injection hx with hx'
        exact hx'.symm
      · rw [List.getElem?_eq_none (by omega)] at hx
        cases hx
    · rintro ⟨h1, h2⟩
      refine ⟨h1, ?_⟩
      intro j hjr hj
      have hjl := List.mem_range.mp hjr
      have hx : probs[j]? = some probs[j] := List.getElem?_eq_getElem hjl
      rw [hx, h2 j probs[j] hj hx])

theorem findIdx_cumsum_concentrated (u : ℚ) (hu0 : 0 ≤ u) (hu1 : u < 1) :
    ∀ (k : Nat) (probs : List ℚ), ConcentratedAt probs k →
      (cumsum probs).findIdx? (fun c => decide (u < c)) = some k := by
  intro k
  induction k with
  | zero =>
      rintro probs ⟨h1, _⟩
      cases probs with
      | nil => simp at h1
      | cons p rest =>
          simp only [List.getElem?_cons_zero, Option.some.injEq] at h1
          subst h1
          unfold cumsum
          rw [List.findIdx?_cons]
          simp [hu1]
  | succ k' ih =>
      rintro probs ⟨h1, h0⟩
      cases probs with
      | nil => simp at h1
      | cons p rest =>
          have hp : p = 0 := h0 0 p (by omega) (by simp)
          subst hp
          have hrest : ConcentratedAt rest k' := by
            constructor
            · simpa using h1
            · intro j x hj hx
              exact h0 (j + 1) x (by omega) (by simpa using hx)
          unfold cumsum
          rw [List.findIdx?_cons]
          have hfalse : decide (u < (0 : ℚ)) = false := by
            simp [not_lt.mpr hu0]
          rw [hfalse]
          simp only [Bool.false_eq_true, if_false]
          have hmap : (cumsum rest).map (fun y => (0 : ℚ) + y) = cumsum rest := by
            simp
          rw [List.findIdx?_succ, hmap, ih rest hrest]
          rfl

theorem categoricalDraw_concentrated (probs : List ℚ) (k : Nat) (u : ℚ)
    (hu0 : 0 ≤ u) (hu1 : u < 1) (hc : ConcentratedAt probs k) :
    categoricalDraw probs u = k := by
  unfold categoricalDraw
  rw [findIdx_cumsum_concentrated u hu0 hu1 k probs hc]

theorem genLoop_total (predict : List Nat → List (List ℚ)) (E : ℚ → ℚ) (t : ℚ)
    (us : Nat → ℚ) (idToChordF : Nat → Option String) (maxLen : Nat) :
    ∀ n step seq acc, seq.length + n ≤ maxLen + 1 →
      ∃ l, genLoop predict E t us idToChordF maxLen n step seq acc = some l ∧
        l.length ≤ acc.length + n := by
  intro n
  induction n with
  | zero =>
      intro step seq acc _
      exact ⟨acc, rfl, by omega⟩
  | succ n ih =>
      intro step seq acc hb
      have hle : seq.length ≤ maxLen := by omega
      simp only [genLoop, prepareInput, if_pos hle]
      by_cases hstop : nextTokenId
          (predict (seq ++ List.replicate (maxLen - seq.length) 0))
          seq.length E t (us step) = 0 ∨
          nextTokenId (predict (seq ++ List.replicate (maxLen - seq.length) 0))
          seq.length E t (us step) = 2
      · rw [if_pos hstop]
        exact ⟨acc, rfl, by omega⟩
      · rw [if_neg hstop]
        obtain ⟨l, hl, hlen⟩ := ih (step + 1)
          (seq ++ [nextTokenId
            (predict (seq ++ List.replicate (maxLen - seq.length) 0))
            seq.length E t (us step)])
          (acc ++ [(idToChordF (nextTokenId
            (predict (seq ++ List.replicate (maxLen - seq.length) 0))
            seq.length E t (us step))).getD "<UNK>"])
          (by simp; omega)
        refine ⟨l, hl, ?_⟩
        simp at hlen
        omega

theorem genLoop_const (predict : List Nat → List (List ℚ)) (E : ℚ → ℚ) (t : ℚ)
    (us : Nat → ℚ) (idToChordF : Nat → Option String) (maxLen : Nat)
    (k : Nat) (sym : String) (hk : ¬(k = 0 ∨ k = 2)) (hsym : idToChordF k = some sym)
    (hnid : ∀ (seq : List Nat) (step : Nat), seq.length ≤ maxLen →
      nextTokenId (predict (seq ++ List.replicate (maxLen - seq.length) 0))
        seq.length E t (us step) = k) :
    ∀ n step seq acc, seq.length + n ≤ maxLen + 1 →
      genLoop predict E t us idToChordF maxLen n step seq acc
        = some (acc ++ List.replicate n sym) := by
  intro n
  induction n with
  | zero =>
      intro step seq acc _
      simp [genLoop]
  | succ n ih =>
      intro step seq acc hb
      have hle : seq.length ≤ maxLen := by omega
      simp only [genLoop, prepareInput, if_pos hle]
      rw [hnid seq step hle, if_neg hk, hsym,
        ih (step + 1) (seq ++ [k]) (acc ++ [(some sym).getD "<UNK>"]) (by simp; omega)]
      simp [List.replicate_succ]

/-- C3 counterexample: with 13 seed chords (`num_chords = 1`), the very first
`prepare_input` call tries to assign 13 ids into the 12-wide frame and raises
a numpy broadcast error (modelled as `none`), so generation does not return a
list for every `num_chords` and every optional seed list. -/
theorem claim_C3_counterexample :
    generateProgression (fun _ => []) (fun _ => 1) (fun _ => none) (fun _ => none)
      12 1 1 (fun _ => 0) (some (List.replicate 13 "C")) = none := by decide

/-- C3 (amended): whenever the id sequence never outgrows the frame — the
initial sequence length plus `num_chords` stays within
`max_sequence_length + 1` — generation returns a (possibly empty) list of at
most `num_chords` chords; each loop step halts immediately (appending
nothing) when the sampled id is PAD (0) or END (2), and otherwise appends the
sampled id to the sequence and its decoded chord to the output.  For longer
seeds or larger `num_chords`, `prepare_input` can raise (see the
counterexample). -/
theorem claim_C3_generation (predict : List Nat → List (List ℚ)) (E : ℚ → ℚ)
    (chordToIdF : String → Option Nat) (idToChordF : Nat → Option String)
    (maxLen numChords : Nat) (t : ℚ) (us : Nat → ℚ)
    (seedChords : Option (List String)) (n step : Nat) (seq : List Nat)
    (acc : List String)
    (hfit : (initSequence chordToIdF seedChords).length + numChords ≤ maxLen + 1)
    (hseq : seq.length ≤ maxLen) :
    (∃ l, generateProgression predict E chordToIdF idToChordF maxLen numChords t us
        seedChords = some l ∧ l.length ≤ numChords) ∧
    ((nextTokenId (predict (seq ++ List.replicate (maxLen - seq.length) 0))
          seq.length E t (us step) = 0 ∨
      nextTokenId (predict (seq ++ List.replicate (maxLen - seq.length) 0))
          seq.length E t (us step) = 2) →
      genLoop predict E t us idToChordF maxLen (n + 1) step seq acc = some acc) ∧
    (¬(nextTokenId (predict (seq ++ List.replicate (maxLen - seq.length) 0))
          seq.length E t (us step) = 0 ∨
       nextTokenId (predict (seq ++ List.replicate (maxLen - seq.length) 0))
          seq.length E t (us step) = 2) →
      genLoop predict E t us idToChordF maxLen (n + 1) step seq acc
        = genLoop predict E t us idToChordF maxLen n (step + 1)
            (seq ++ [nextTokenId
              (predict (seq ++ List.replicate (maxLen - seq.length) 0))
              seq.length E t (us step)])
            (acc ++ [(idToChordF (nextTokenId
              (predict (seq ++ List.replicate (maxLen - seq.length) 0))
              seq.length E t (us step))).getD "<UNK>"])) := by
  refine ⟨?_, ?_, ?_⟩
  · obtain ⟨l, hl, hlen⟩ := genLoop_total predict E t us idToChordF maxLen numChords 0
      (initSequence chordToIdF seedChords) [] hfit
    exact ⟨l, hl, by simpa using hlen⟩
  · intro hstop
    simp only [genLoop, prepareInput, if_pos hseq]
    rw [if_pos hstop]
  · intro hstop
    simp only [genLoop, prepareInput, if_pos hseq]
    rw [if_neg hstop]

/-- C3 witness instance (first conjunct). -/
theorem claim_C3_witness :
    ((initSequence (fun _ => none) none).length + 4 ≤ 12 + 1) ∧
    ((1 : Nat) ≤ 12) ∧
    ∃ l, generateProgression (fun _ => [[(1 : ℚ)]]) (fun _ => 1) (fun _ => none)
        (fun _ => none) 12 4 1 (fun _ => 0) none = some l ∧ l.length ≤ 4 :=
  ⟨by decide, by decide,
    (claim_C3_generation (fun _ => [[(1 : ℚ)]]) (fun _ => 1) (fun _ => none)
      (fun _ => none) 12 4 1 (fun _ => 0) none 0 0 [1] [] (by decide) (by decide)).1⟩

/-- C10: seed chords outside the vocabulary are encoded by
`chord_to_id.get(c, 0)` with fallback id 0 — the PAD id — unlike the UNK id 3
used by `encode_progression` at dataset time; a vocabulary without `<START>`
falls back to initial id 1; hence a seeded generation frame can begin with
PAD ids. -/
theorem claim_C10_seed_encoding (f : String → Option Nat) (seeds : List String)
    (i : Nat) (c : String) (ps : List RawProg)
    (hne : seeds ≠ []) (hc : seeds[i]? = some c) (hmiss : f c = none)
    (hcorpus : ∀ t ∈ [PAD_TOKEN, START_TOKEN, END_TOKEN, UNK_TOKEN],
      t ∉ corpusChords ps)
    (hnv : c ∉ buildChordList ps) :
    initSequence f (some seeds) = seeds.map (fun s => (f s).getD 0) ∧
    (initSequence f (some seeds))[i]? = some 0 ∧
    dictLookup (buildChordList ps) PAD_TOKEN = some 0 ∧
    encodeProgression (buildChordList ps) [c] = [3] ∧
    (f "<START>" = none →
      initSequence f none = [1] ∧ initSequence f (some []) = [1]) := by
  have hnd := buildChordList_nodup ps hcorpus
  have h1 : initSequence f (some seeds) = seeds.map (fun s => (f s).getD 0) := by
    simp only [initSequence]
    rw [if_pos hne]
  refine ⟨h1, ?_, ?_, ?_, ?_⟩
  · rw [h1, List.getElem?_map, hc]
    simp [hmiss]
  · exact dictLookup_of_nodup _ hnd 0 _ (by simp [buildChordList])
  · have hcnone : dictLookup (buildChordList ps) c = none :=
      dictLookup_eq_none_of_not_mem _ c hnv
    have hunk : dictLookup (buildChordList ps) UNK_TOKEN = some 3 :=
      dictLookup_of_nodup _ hnd 3 _ (by simp [buildChordList])
    simp [encodeProgression, hcnone, hunk]
  · intro hs
    constructor <;> simp [initSequence, hs]

/-- C10 witness instance. -/
theorem claim_C10_witness :
    ((["Z"] : List String) ≠ []) ∧ (["Z"][0]? = some "Z") ∧
    ((fun _ : String => (none : Option Nat)) "Z" = none) ∧
    (∀ t ∈ [PAD_TOKEN, START_TOKEN, END_TOKEN, UNK_TOKEN],
      t ∉ corpusChords [⟨["C"], "pop", "happy", "C", "major"⟩]) ∧
    ("Z" ∉ buildChordList [⟨["C"], "pop", "happy", "C", "major"⟩]) ∧
    (initSequence (fun _ => none) (some ["Z"]))[0]? = some 0 :=
  ⟨by decide, by decide, rfl, by decide, by decide,
    (claim_C10_seed_encoding (fun _ => none) ["Z"] 0 "Z"
      [⟨["C"], "pop", "happy", "C", "major"⟩] (by decide) (by decide) rfl
      (by decide) (by decide)).2.1⟩

theorem genLoop_stop (predict : List Nat → List (List ℚ)) (E : ℚ → ℚ) (t : ℚ)
    (us : Nat → ℚ) (idToChordF : Nat → Option String) (maxLen n step : Nat)
    (seq : List Nat) (acc : List String) (hle : seq.length ≤ maxLen)
    (hstop : nextTokenId (predict (seq ++ List.replicate (maxLen - seq.length) 0))
        seq.length E t (us step) = 0 ∨
      nextTokenId (predict (seq ++ List.replicate (maxLen - seq.length) 0))
        seq.length E t (us step) = 2) :
    genLoop predict E t us idToChordF maxLen (n + 1) step seq acc = some acc := by
  simp only [genLoop, prepareInput, if_pos hle]
  rw [if_pos hstop]

/-- C1 counterexample: a model whose output is concentrated (probability
exactly 1) on chord id 4 at every frame position does *not* make the
generator return that chord's symbol 4 times: `_sample_with_temperature`
re-softmaxes the probabilities (treating them as logits), which flattens the
distribution, and for the uniform draw 1/10 the sampler picks index 0 (PAD)
and generation halts with `[]`.  The exponential stand-in takes the values
1 at 0 and 0.368 at -1, matching `np.exp` closely enough that index 0's
re-softmaxed probability (46/309 ≈ 0.149 here, ≈ 0.1488 with `np.exp`)
exceeds 1/10 either way. -/
theorem claim_C1_counterexample :
    (∀ inp : List Nat, ∀ fr ∈ (fun _ : List Nat =>
        List.replicate 12 [(0 : ℚ), 0, 0, 0, 1]) inp, ConcentratedAt fr 4) ∧
    generateProgression (fun _ => List.replicate 12 [(0 : ℚ), 0, 0, 0, 1])
      (fun x => if x = 0 then 1 else 368 / 1000)
      (fun c => if c = "<START>" then some 1 else none)
      (fun i => if i = 4 then some "G" else none)
      12 4 1 (fun _ => 1 / 10) none = some [] ∧
    some ([] : List String) ≠ some (List.replicate 4 "G") := by
  refine ⟨?_, ?_, by decide⟩
  · intro inp fr hfr
    rw [List.eq_of_mem_replicate hfr]
    decide
  · have hmap : ([(0 : ℚ), 0, 0, 0, 1].map (fun x => x / 1)) = [0, 0, 0, 0, 1] := by
      norm_num
    have hsm : softmax (fun x => if x = 0 then (1 : ℚ) else 368 / 1000) [0, 0, 0, 0, 1]
        = [46/309, 46/309, 46/309, 46/309, 125/309] := by
      norm_num [softmax, List.max?]
    have hdraw : categoricalDraw [(46 : ℚ)/309, 46/309, 46/309, 46/309, 125/309] (1/10)
        = 0 := by
      norm_num [categoricalDraw, cumsum, List.findIdx?]
    have hnid : nextTokenId (List.replicate 12 [(0 : ℚ), 0, 0, 0, 1]) 1
        (fun x => if x = 0 then (1 : ℚ) else 368 / 1000) 1 (1/10) = 0 := by
      have h0 : nextTokenId (List.replicate 12 [(0 : ℚ), 0, 0, 0, 1]) 1
          (fun x => if x = 0 then (1 : ℚ) else 368 / 1000) 1 (1/10)
          = sampleWithTemperature (fun x => if x = 0 then (1 : ℚ) else 368 / 1000)
            [0, 0, 0, 0, 1] 1 (1/10) := rfl
      rw [h0]
      unfold sampleWithTemperature
      rw [hmap, hsm, hdraw]
    have h0 : generateProgression (fun _ => List.replicate 12 [(0 : ℚ), 0, 0, 0, 1])
        (fun x => if x = 0 then 1 else 368 / 1000)
        (fun c => if c = "<START>" then some 1 else none)
        (fun i => if i = 4 then some "G" else none)
        12 4 1 (fun _ => 1 / 10) none
        = genLoop (fun _ => List.replicate 12 [(0 : ℚ), 0, 0, 0, 1])
          (fun x => if x = 0 then 1 else 368 / 1000) 1 (fun _ => 1 / 10)
          (fun i => if i = 4 then some "G" else none) 12 4 0 [1] [] := rfl
    rw [h0, show (4 : Nat) = 3 + 1 from rfl]
    apply genLoop_stop
    · decide
    · left
      exact hnid

/-- C1 (amended): if at temperature 1 the categorical distribution the
sampler actually draws from — the max-subtracting softmax of the model's
scores — is concentrated (probability 1) on a known chord id `k` at every
frame position, then with `num_chords = 4` and no seed the generator returns
`k`'s symbol repeated 4 times, or the empty list immediately when `k` is the
PAD id 0 or the END id 2.  Moreover a draw from any concentrated categorical
distribution deterministically returns its peak index for every uniform
`u ∈ [0,1)`, and the sampling step at temperature 1 is exactly a categorical
draw from the max-subtracting softmax of the unscaled scores (dividing by
temperature 1.0 changes nothing). -/
theorem claim_C1_concentrated_generation (predict : List Nat → List (List ℚ))
    (E : ℚ → ℚ) (chordToIdF : String → Option Nat)
    (idToChordF : Nat → Option String) (us : Nat → ℚ) (k : Nat) (sym : String)
    (hpred : ∀ inp, predict inp ≠ [])
    (hconc : ∀ inp, ∀ fr ∈ predict inp,
      ConcentratedAt (softmax E (fr.map (fun x => x / 1))) k)
    (hu : ∀ i, 0 ≤ us i ∧ us i < 1)
    (hsym : idToChordF k = some sym) :
    generateProgression predict E chordToIdF idToChordF 12 4 1 us none
      = some (if k = 0 ∨ k = 2 then [] else List.replicate 4 sym) ∧
    (∀ (probs : List ℚ) (j : Nat) (u : ℚ), 0 ≤ u → u < 1 →
      ConcentratedAt probs j → categoricalDraw probs u = j) ∧
    (∀ (scores : List ℚ) (u : ℚ),
      sampleWithTemperature E scores 1 u = categoricalDraw (softmax E scores) u) := by
  have hnid : ∀ (seq : List Nat) (step : Nat), seq.length ≤ 12 →
      nextTokenId (predict (seq ++ List.replicate (12 - seq.length) 0))
        seq.length E 1 (us step) = k := by
    intro seq step _
    have hne := hpred (seq ++ List.replicate (12 - seq.length) 0)
    have hfr := hconc (seq ++ List.replicate (12 - seq.length) 0)
    unfold nextTokenId
    generalize hP : predict (seq ++ List.replicate (12 - seq.length) 0) = preds
      at hne hfr ⊢
    have hlenpos : 0 < preds.length := List.length_pos.mpr hne
    have hposlt : (if seq.length - 1 ≥ preds.length then preds.length - 1
        else seq.length - 1) < preds.length := by
      split_ifs with hcase <;> omega
    have hgetD : preds.getD (if seq.length - 1 ≥ preds.length then preds.length - 1
          else seq.length - 1) []
        = preds[(if seq.length - 1 ≥ preds.length then preds.length - 1
          else seq.length - 1)] := List.getD_eq_getElem preds [] hposlt
    show sampleWithTemperature E (preds.getD (if seq.length - 1 ≥ preds.length
      then preds.length - 1 else seq.length - 1) []) 1 (us step) = k
    rw [hgetD]
    unfold sampleWithTemperature
    exact categoricalDraw_concentrated _ k _ (hu step).1 (hu step).2
      (hfr _ (List.getElem_mem hposlt))
  have hlen1 : (initSequence chordToIdF none).length = 1 := rfl
  refine ⟨?_, fun probs j u h0 h1 hcc => categoricalDraw_concentrated probs j u h0 h1 hcc,
    ?_⟩
  · by_cases hk : k = 0 ∨ k = 2
    · rw [if_pos hk]
      unfold generateProgression
      have hle : (initSequence chordToIdF none).length ≤ 12 := by omega
      simp only [genLoop, prepareInput, if_pos hle]
      rw [hnid _ 0 hle, if_pos hk]
    · rw [if_neg hk]
      unfold generateProgression
      rw [genLoop_const predict E 1 us idToChordF 12 k sym hk hsym hnid 4 0
        (initSequence chordToIdF none) [] (by omega)]
      simp
  · intro scores u
    unfold sampleWithTemperature
    have hs : scores.map (fun x => x / 1) = scores := by simp
    rw [hs]

/-- C1 witness instance (first conjunct, with a one-hot exponential stand-in
and a singleton-support model making the sampled distribution concentrated at
id 5). -/
theorem claim_C1_witness :
    (∀ inp : List Nat, (fun _ : List Nat =>
      List.replicate 12 [(0 : ℚ), 0, 0, 0, 0, 9]) inp ≠ []) ∧
    (∀ inp : List Nat, ∀ fr ∈ (fun _ : List Nat =>
        List.replicate 12 [(0 : ℚ), 0, 0, 0, 0, 9]) inp,
      ConcentratedAt (softmax (fun x => if x = 0 then (1 : ℚ) else 0)
        (fr.map (fun x => x / 1))) 5) ∧
    (∀ i : Nat, 0 ≤ (fun _ : Nat => (1 : ℚ) / 2) i ∧ (fun _ : Nat => (1 : ℚ) / 2) i < 1) ∧
    ((fun i => if i = 5 then some "G" else none : Nat → Option String) 5 = some "G") ∧
    generateProgression (fun _ => List.replicate 12 [(0 : ℚ), 0, 0, 0, 0, 9])
      (fun x => if x = 0 then (1 : ℚ) else 0) (fun _ => none)
      (fun i => if i = 5 then some "G" else none)
      12 4 1 (fun _ => 1 / 2) none
      = some (if (5 : Nat) = 0 ∨ (5 : Nat) = 2 then [] else List.replicate 4 "G") := by
  have hpred : ∀ inp : List Nat, (fun _ : List Nat =>
      List.replicate 12 [(0 : ℚ), 0, 0, 0, 0, 9]) inp ≠ [] := by
    intro inp
    show List.replicate 12 [(0 : ℚ), 0, 0, 0, 0, 9] ≠ []
    decide
  have hconc : ∀ inp : List Nat, ∀ fr ∈ (fun _ : List Nat =>
      List.replicate 12 [(0 : ℚ), 0, 0, 0, 0, 9]) inp,
      ConcentratedAt (softmax (fun x => if x = 0 then (1 : ℚ) else 0)
        (fr.map (fun x => x / 1))) 5 := by
    intro inp fr hfr
    rw [List.eq_of_mem_replicate hfr]
    have hsm : softmax (fun x => if x = 0 then (1 : ℚ) else 0)
        ([(0 : ℚ), 0, 0, 0, 0, 9].map (fun x => x / 1)) = [0, 0, 0, 0, 0, 1] := by
      norm_num [softmax, List.max?]
    rw [hsm]
    decide
  have hu : ∀ i : Nat, 0 ≤ (fun _ : Nat => (1 : ℚ) / 2) i ∧
      (fun _ : Nat => (1 : ℚ) / 2) i < 1 := fun _ => by constructor <;> norm_num
  exact ⟨hpred, hconc, hu, rfl,
    (claim_C1_concentrated_generation (fun _ => List.replicate 12 [(0 : ℚ), 0, 0, 0, 0, 9])
      (fun x => if x = 0 then (1 : ℚ) else 0) (fun _ => none)
      (fun i => if i = 5 then some "G" else none) (fun _ => 1 / 2) 5 "G"
      hpred hconc hu rfl).1⟩

end ChordAI
